import Mathlib

/-!
Verification development for the `ruggit` GitLab CI/CD-variable resolver.

The Rust sources are shallowly embedded: strings are modelled as `List Char`
(the sources only ever slice at ASCII regex-match boundaries, where byte and
character indices coincide), fallible functions return `Option`/`Except`, and
`std::process::exit` / `panic!` sites are reified as explicit outcome
constructors.  Each embedded definition mirrors one function of the source
tree, named after it.
-/

namespace Ruggit

/-! ### src/uri_meta.rs — token and domain parsing

`PATTERN_URL_TOKENS = [^:|\/]+` : maximal runs of characters other than
`':'`, `'|'`, `'/'`.  `PATTERN_DOMAIN = gitlab.*\.[a-z, A-Z, 0-9]*(:|\/)` :
the literal `gitlab`, then `.*` (any characters but newline, greedy), a
literal dot, a greedy run over the character class (which contains the
ranges a-z, A-Z, 0-9 and the literal characters `','` and `' '`), and a
final `':'` or `'/'`.  The `regex` crate uses leftmost-first semantics:
the match starts at the smallest possible index, and greedy repetitions
take the largest extent that still allows the remainder to match. -/

/-- A character the token pattern `[^:|\/]+` rejects (a token delimiter). -/
def isDelim (c : Char) : Bool := c == ':' || c == '|' || c == '/'

/-- Membership in the domain pattern's class `[a-z, A-Z, 0-9]`: the three
ranges plus the literal comma and space appearing in the class. -/
def isClassChar (c : Char) : Bool :=
  (decide ('a' ≤ c) && decide (c ≤ 'z')) || c == ',' || c == ' ' ||
  (decide ('A' ≤ c) && decide (c ≤ 'Z')) || (decide ('0' ≤ c) && decide (c ≤ '9'))

/-- What `.` matches in the `regex` crate by default: anything but a newline. -/
def isDotAny (c : Char) : Bool := c != '\n'

/-- The maximal runs of non-delimiter characters of a string, in order:
exactly the matches produced by `captures_iter` of `[^:|\/]+`. -/
def splitTokens : List Char → List (List Char)
  | [] => []
  | c :: rest =>
    if isDelim c then splitTokens rest
    else
      match rest with
      | [] => [[c]]
      | d :: rest' =>
        if isDelim d then [c] :: splitTokens (d :: rest')
        else
          match splitTokens (d :: rest') with
          | [] => [[c]]
          | t :: ts => (c :: t) :: ts

/-- The four characters of the suffix `".git"`. -/
def gitSuffix : List Char := ['.', 'g', 'i', 't']

/-- Rust `if last.ends_with(".git") { last[..last.len() - 4] }` on one token. -/
def stripGit (t : List Char) : List Char :=
  if gitSuffix.isSuffixOf t then t.take (t.length - 4) else t

/-- Apply `stripGit` to the final element only (the in-place
`tokens.last_mut()` rewrite of the source). -/
def stripGitLast : List (List Char) → List (List Char)
  | [] => []
  | [t] => [stripGit t]
  | t :: ts => t :: stripGitLast ts

/-- Model of `uri_meta::parse_tokens`: collect the `[^:|\/]+` matches; if more than
one exists, strip `".git"` from the last and drop the first (the domain
occurrence); otherwise return `None`. -/
def parse_tokens (s : List Char) : Option (List (List Char)) :=
  let tokens := splitTokens s
  if tokens.length > 1 then some ((stripGitLast tokens).drop 1) else none

/-- The six characters of the literal `gitlab`. -/
def glChars : List Char := ['g', 'i', 't', 'l', 'a', 'b']

/-- Does the literal `gitlab` occur at index `i`? -/
def gitlabAt (s : List Char) (i : Nat) : Bool := (s.drop i).take 6 == glChars

/-- Length of the maximal `[a-z, A-Z, 0-9]*` run starting at index `p`. -/
def classRunLen (s : List Char) (p : Nat) : Nat :=
  ((s.drop p).takeWhile isClassChar).length

/-- Are all characters in the index interval `[a, b)` matchable by `.`? -/
def dotAnyAll (s : List Char) (a b : Nat) : Bool :=
  ((s.drop a).take (b - a)).all isDotAny

/-- For a match attempt of `PATTERN_DOMAIN` starting at `i`: can the literal
dot land at index `p`?  If so return the index of the terminating `':'`/`'/'`
delimiter (the class run after the dot is greedy, and shrinking it cannot
help: a shorter run leaves a class character where the delimiter must be). -/
def validDot (s : List Char) (i p : Nat) : Option Nat :=
  if i + 6 ≤ p && s[p]? == some '.' && dotAnyAll s (i + 6) p then
    if s[p + 1 + classRunLen s (p + 1)]? == some ':' ||
        s[p + 1 + classRunLen s (p + 1)]? == some '/' then
      some (p + 1 + classRunLen s (p + 1))
    else none
  else none

/-- Greedy `.*`: the largest dot position `p < n` that completes a match for
start index `i`; returns the delimiter index.  Scans `p = n-1, n-2, …, 0`. -/
def bestEnd (s : List Char) (i : Nat) : Nat → Option Nat
  | 0 => none
  | n + 1 =>
    match validDot s i n with
    | some j => some j
    | none => bestEnd s i n

/-- Leftmost-first: the smallest start index `i` (necessarily a `gitlab`
occurrence) from which the pattern matches; returns `(i, j)` with `j` the
delimiter index of the greedy match.  `fuel` counts the remaining start
indices to try. -/
def findStartAux (s : List Char) : Nat → Nat → Option (Nat × Nat)
  | _, 0 => none
  | i, fuel + 1 =>
    if gitlabAt s i then
      match bestEnd s i s.length with
      | some j => some (i, j)
      | none => findStartAux s (i + 1) fuel
    else findStartAux s (i + 1) fuel

/-- Model of `uri_meta::parse_domain`: the leftmost-first greedy match of
`PATTERN_DOMAIN`, minus its final delimiter (`start..end-1` of the source). -/
def parse_domain (s : List Char) : Option (List Char) :=
  (findStartAux s 0 s.length).map (fun ij => (s.take ij.2).drop ij.1)

/-- Mapping `[t1, …, tn] ↦ t1 ++ "/" ++ … ++ "/" ++ tn` (Rust `join("/")`). -/
def joinSlash : List (List Char) → List Char
  | [] => []
  | [t] => t
  | t :: ts => t ++ '/' :: joinSlash ts

/-- Model of `uri_meta::make_url`: `domain + "/" + tokens.join("/")`. -/
def make_url (domain : List Char) (tokens : List (List Char)) : List Char :=
  domain ++ '/' :: joinSlash tokens

/-- Model of `uri_meta::Resource`. -/
inductive Resource
  | Repo
  | Group
deriving DecidableEq

/-- Model of `uri_meta::UriMeta`. -/
structure UriMeta where
  identifier : List Char
  url : List Char
  domain : List Char
  tokens : List (List Char)
  resource : Option Resource
deriving DecidableEq

/-- Model of `uri_meta::from_web`: parse domain and tokens of the typed string, then
derive `identifier` and `url`; `resource` stays unset. -/
def from_web (path : List Char) : Option UriMeta := do
  let domain ← parse_domain path
  let tokens ← parse_tokens path
  some { identifier := joinSlash tokens
         url := make_url domain tokens
         domain := domain
         tokens := tokens
         resource := none }

/-- Model of `uri_meta::from_disk`, given the fetch URL of the checkout's `origin`
remote (the `git2` repository walk that obtains it is an external library
call; the embedded part is the field computation of lines 172–181): same
four fields as `from_web`, and `resource` is always `Repo`. -/
def from_disk (originUrl : List Char) : Option UriMeta := do
  let domain ← parse_domain originUrl
  let tokens ← parse_tokens originUrl
  some { identifier := joinSlash tokens
         url := make_url domain tokens
         domain := domain
         tokens := tokens
         resource := some Resource.Repo }

/-! ### src/cmdline.rs — source classification -/

/-- Model of `uri_meta::Source`. -/
inductive Source
  | Disk (s : List Char)
  | Web (s : List Char)
deriving DecidableEq

/-- Rust `replacen(":", "/", 1)`: replace the first `':'`, wherever it is. -/
def replaceFirstColon : List Char → List Char
  | [] => []
  | c :: rest => if c = ':' then '/' :: rest else c :: replaceFirstColon rest

/-- Rust `replace("~", home)`: replace every `'~'` by the home path. -/
def replaceTilde (home : List Char) : List Char → List Char
  | [] => []
  | c :: rest =>
    if c = '~' then home ++ replaceTilde home rest else c :: replaceTilde home rest

/-- Model of `webpattern.is_match`: cmdline.rs compiles the very same pattern text as
`PATTERN_DOMAIN` of uri_meta.rs, so a match exists iff `parse_domain`
succeeds. -/
def webpatternMatches (s : List Char) : Bool := (parse_domain s).isSome

/-- Model of `cmdline::parse_source`.  The `HOME` environment lookup is modelled by
the `home` argument (`none` when the variable is absent). -/
def parse_source (input : List Char) (home : Option (List Char)) : Source :=
  if webpatternMatches input then Source.Web (replaceFirstColon input)
  else
    match home with
    | none => Source.Disk input
    | some h => Source.Disk (replaceTilde h input)

/-! ### src/gapi.rs — paginated listings and resource resolution -/

/-- Model of `gapi::GitlabResourceMeta`: `full_path` exists only for groups,
`path_with_namespace` only for projects. -/
structure GitlabResourceMeta where
  id : Nat
  full_path : Option (List Char)
  path_with_namespace : Option (List Char)
deriving DecidableEq

/-- Model of `gapi::GitlabVariable`. -/
structure GitlabVariable where
  key : List Char
  value : List Char
  description : Option (List Char)
deriving DecidableEq

/-- Model of `gapi::GitlabResource` (the `auth_token`/`client` fields are copies of
the `GApi` fields and carry no resolution state; they are omitted). -/
structure GitlabResource where
  url : List Char
  meta : GitlabResourceMeta
deriving DecidableEq

/-- A paginated listing endpoint as the network presents it to
`get_all_pages`: the `x-total-pages` response header of the first request
(absent when the endpoint is not paginated) and, for each page number, the
decoded item array its response body holds. -/
structure PageServer (T : Type) where
  totalPagesHeader : Option Nat
  page : Nat → List T

/-- Model of `gapi::get_all_pages`: one initial request (whose body is discarded)
reads `x-total-pages`; absence is the error of the source.  Then the loop
`for i in 1..=total_pages` spawns one task per page `1, …, total` — page 1
again included — and the awaiting loop appends the bodies in task order,
which is page order.  Returns the concatenated items together with the list
of page numbers the spawned tasks requested, in spawn order. -/
def get_all_pages {T : Type} (srv : PageServer T) :
    Except String (List T × List Nat) :=
  match srv.totalPagesHeader with
  | none => Except.error "expected paged result but got something else"
  | some total =>
    let tasks := (List.range total).map (fun i => (i + 1, srv.page (i + 1)))
    Except.ok (tasks.flatMap (fun t => t.2), tasks.map (fun t => t.1))

/-- The `https://{domain}/api/v4/groups/{id}` URL of the early group
return. -/
def groupUrl (domain : List Char) (id : Nat) : List Char :=
  "https://".toList ++ domain ++ "/api/v4/groups/".toList ++ (toString id).toList

/-- The `https://{domain}/api/v4/projects/{id}` URL of the project return. -/
def projectUrl (domain : List Char) (id : Nat) : List Char :=
  "https://".toList ++ domain ++ "/api/v4/projects/".toList ++ (toString id).toList

/-- Model of `GApi::resource_from_uri`, with the two already-fetched listings passed
as data: `groups` is the group listing, `projects gid` the project listing
of group `gid`.  Returns `none` exactly where the source panics: when no
group matches the full path and `uri.tokens` is empty, the slice bound
`uri.tokens.len() - 1` underflows `usize`.  Otherwise mirrors the source:
first group whose `full_path` equals the joined tokens wins immediately;
else the first group matching the joined tokens minus the last segment is
the containing group (error `"no containing group found"` when none); its
projects are then searched for a `path_with_namespace` equal to the full
joined path (error `"found no gitlab resource"` when none matches). -/
def resource_from_uri (domain : List Char) (groups : List GitlabResourceMeta)
    (projects : Nat → List GitlabResourceMeta) (tokens : List (List Char)) :
    Option (Except String GitlabResource) :=
  let expected_path := joinSlash tokens
  match groups.find? (fun g => g.full_path == some expected_path) with
  | some g => some (Except.ok { url := groupUrl domain g.id, meta := g })
  | none =>
    if tokens.length = 0 then none
    else
      let probable_group_path := joinSlash (tokens.take (tokens.length - 1))
      match groups.find? (fun g => g.full_path == some probable_group_path) with
      | none => some (Except.error "no containing group found")
      | some cg =>
        match (projects cg.id).find?
            (fun p => p.path_with_namespace == some expected_path) with
        | some p => some (Except.ok { url := projectUrl domain p.id, meta := p })
        | none => some (Except.error "found no gitlab resource")

/-! ### src/crypto.rs — error taxonomy of the encrypted store -/

/-- Model of `crypto::CryptoError` (payloads dropped: only the variant
steers control flow in the cache constructors; the source's `IO` variant is
spelled `IOErr` here). -/
inductive CryptoError
  | DecryptError
  | EncryptError
  | IOErr
deriving DecidableEq

/-- The outcome of `EncryptedRW::read`: decrypted bytes, or an error. -/
inductive ReadResult
  | ok (content : List Nat)
  | err (e : CryptoError)
deriving DecidableEq

/-! ### src/cache.rs and src/token.rs — constructors over the store -/

/-- What a constructor that may call `std::process::exit` or `panic!`
produces. -/
inductive NewOutcome (T : Type)
  | ok (value : T)
  | exitProcess (code : Nat)
  | panicked
deriving DecidableEq

/-- Model of `Cache::<T, U>::new`, with the store read reified as `r` and
`serde_json::from_slice` as `deser` (`none` = deserialization failure) and
`T::default()` as `dflt`: an `IO` read error logs and yields the default;
any other read error is `std::process::exit(1)`; readable bytes that fail
to deserialize silently yield the default. -/
def Cache.new {T : Type} (deser : List Nat → Option T) (dflt : T)
    (r : ReadResult) : NewOutcome T :=
  match r with
  | ReadResult.err CryptoError.IOErr => NewOutcome.ok dflt
  | ReadResult.err _ => NewOutcome.exitProcess 1
  | ReadResult.ok content =>
    match deser content with
    | some v => NewOutcome.ok v
    | none => NewOutcome.ok dflt

/-- Model of `token::OnDisk` — the domain→token map, modelled as an association
list with unique keys (Rust `HashMap`). -/
def TokenMap : Type := List (List Char × List Char)

/-- Model of `TokenStore::new`: `DecryptError` is `std::process::exit(1)`;
`IO` clears to the default; `EncryptError` on a read is
`panic!("this should be impossible")`; undeserializable bytes yield the
default. -/
def TokenStore.new (deser : List Nat → Option TokenMap) (r : ReadResult) :
    NewOutcome TokenMap :=
  match r with
  | ReadResult.err CryptoError.DecryptError => NewOutcome.exitProcess 1
  | ReadResult.err CryptoError.IOErr => NewOutcome.ok []
  | ReadResult.err CryptoError.EncryptError => NewOutcome.panicked
  | ReadResult.ok content =>
    match deser content with
    | some v => NewOutcome.ok v
    | none => NewOutcome.ok []

/-! ### src/gitlab_cache.rs — the resource cache -/

namespace GitlabCache

/-- Model of `gitlab_cache::Resource` (its `variables` field is spelled `vars`:
`variables` is a reserved word in Lean). -/
structure Resource where
  meta : GitlabResourceMeta
  vars : List GitlabVariable
deriving DecidableEq

/-- Model of `gitlab_cache::ResourceIdentifier`. -/
def ResourceIdentifier : Type := List Char

/-- Model of `gitlab_cache::ResourceMap` — a `HashMap`, modelled as an association
list; `hmInsert` keeps keys unique. -/
def ResourceMap : Type := List (List Char × Resource)

/-- Model of `HashMap::insert`: bind `k` to `v`, replacing any previous binding. -/
def hmInsert (m : ResourceMap) (k : List Char) (v : Resource) : ResourceMap :=
  (k, v) :: m.filter (fun e => e.1 ≠ k)

/-- Model of `HashMap::get`. -/
def hmGet (m : ResourceMap) (k : List Char) : Option Resource :=
  (m.find? (fun e => e.1 == k)).map (fun e => e.2)

/-- The identifier derivation block of `CachedResources::insert`:
prefer `full_path`, else `path_with_namespace`, else the source panics. -/
def deriveIdentifier (meta : GitlabResourceMeta) : Option (List Char) :=
  match meta.full_path with
  | some p => some p
  | none => meta.path_with_namespace

/-- Model of `CachedResources::insert`, in state-passing form.  `persistOk` is
whether `self.inner.update()` (serialize + encrypted write of the whole
map) succeeds; on failure the source only prints
`"failed to cache resource map"` and keeps the updated in-memory map.  A
meta with neither path field is the source's `panic!`. -/
def insert (m : ResourceMap) (meta : GitlabResourceMeta)
    (vars : List GitlabVariable) (persistOk : Bool) :
    NewOutcome ResourceMap × Option (List Char) :=
  match deriveIdentifier meta with
  | none => (NewOutcome.panicked, none)
  | some id =>
    let m' := hmInsert m id { meta := meta, vars := vars }
    (NewOutcome.ok m',
     if persistOk then none else some "failed to cache resource map".toList)

/-- Model of `CachedResources::get` in state-passing form: the looked-up value (a
clone) together with the receiver state it leaves behind. -/
def get (m : ResourceMap) (identifier : List Char) :
    Option Resource × ResourceMap :=
  (hmGet m identifier, m)

/-- Model of `CachedResources::list` in state-passing form. -/
def list (m : ResourceMap) : List (List Char) × ResourceMap :=
  (m.map (fun e => e.1), m)

end GitlabCache

/-! ### Helper lemmas -/

theorem stripGitLast_length (l : List (List Char)) :
    (stripGitLast l).length = l.length := by
  induction l with
  | nil => rfl
  | cons t ts ih =>
    cases ts with
    | nil => rfl
    | cons a b => simpa [stripGitLast] using ih

theorem find?_filter_of_imp {α : Type} (p q : α → Bool) (l : List α)
    (h : ∀ x, p x = true → q x = true) :
    (l.filter q).find? p = l.find? p := by
  induction l with
  | nil => rfl
  | cons a l ih =>
    by_cases hq : q a = true
    · rw [List.filter_cons_of_pos hq]
      rw [List.find?_cons, List.find?_cons]
      cases hp : p a
      · exact ih
      · rfl
    · have hp : p a = false := by
        cases hpa : p a
        · rfl
        · exact absurd (h a hpa) hq
      rw [List.filter_cons_of_neg (by simp [hq]), List.find?_cons, hp]
      exact ih

namespace GitlabCache

theorem hmGet_hmInsert_self (m : ResourceMap) (k : List Char) (v : Resource) :
    hmGet (hmInsert m k v) k = some v := by
  simp [hmGet, hmInsert, List.find?_cons]

theorem hmGet_hmInsert_ne (m : ResourceMap) (k id' : List Char) (v : Resource)
    (h : id' ≠ k) :
    hmGet (hmInsert m k v) id' = hmGet m id' := by
  have hk : (k == id') = false := by
    simp only [beq_eq_false_iff_ne]
    exact fun hkid => h hkid.symm
  simp only [hmGet, hmInsert, List.find?_cons, hk]
  rw [find?_filter_of_imp]
  intro x hx
  have : x.1 = id' := by simpa using hx
  simp [this, h]

end GitlabCache

theorem take_takeWhile_length {A : Type} (q : A → Bool) (l : List A) :
    l.take (l.takeWhile q).length = l.takeWhile q := by
  induction l with
  | nil => rfl
  | cons a l ih =>
    by_cases h : q a = true
    · rw [List.takeWhile_cons_of_pos h]
      simpa [List.take_succ_cons] using ih
    · rw [List.takeWhile_cons_of_neg (by simp [h])]
      rfl

theorem takeWhile_run_append {q : Char → Bool} (r rest : List Char)
    (hr : ∀ x ∈ r, q x = true) (c : Char) (hc : q c = false) :
    (r ++ c :: rest).takeWhile q = r := by
  induction r with
  | nil => simp [List.takeWhile_cons, hc]
  | cons a r ih =>
    rw [List.cons_append,
      List.takeWhile_cons_of_pos (hr a (List.mem_cons_self a r))]
    rw [ih (fun x hx => hr x (List.mem_cons_of_mem a hx))]

theorem validDot_some (s : List Char) (i p j : Nat)
    (h : validDot s i p = some j) :
    i + 6 ≤ p ∧ s[p]? = some '.' ∧ dotAnyAll s (i + 6) p = true ∧
    j = p + 1 + classRunLen s (p + 1) ∧
    (s[j]? = some ':' ∨ s[j]? = some '/') := by
  unfold validDot at h
  by_cases hc : (decide (i + 6 ≤ p) && s[p]? == some '.' &&
      dotAnyAll s (i + 6) p) = true
  · rw [if_pos hc] at h
    by_cases hdl : (s[p + 1 + classRunLen s (p + 1)]? == some ':' ||
        s[p + 1 + classRunLen s (p + 1)]? == some '/') = true
    · rw [if_pos hdl] at h
      cases h
      simp only [Bool.and_eq_true, decide_eq_true_eq, beq_iff_eq] at hc
      simp only [Bool.or_eq_true, beq_iff_eq] at hdl
      exact ⟨hc.1.1, hc.1.2, hc.2, rfl, hdl⟩
    · rw [if_neg hdl] at h
      cases h
  · rw [if_neg hc] at h
    cases h

theorem validDot_build (s : List Char) (i p : Nat)
    (h6 : i + 6 ≤ p) (hdot : s[p]? = some '.')
    (hany : dotAnyAll s (i + 6) p = true)
    (hdelim : s[p + 1 + classRunLen s (p + 1)]? = some ':' ∨
      s[p + 1 + classRunLen s (p + 1)]? = some '/') :
    validDot s i p = some (p + 1 + classRunLen s (p + 1)) := by
  unfold validDot
  rw [if_pos (by simp [h6, hdot, hany])]
  rw [if_pos ?_]
  rcases hdelim with h | h <;> simp [h]

theorem validDot_none_of_no_dot (s : List Char) (i p : Nat)
    (h : s[p]? ≠ some '.') : validDot s i p = none := by
  unfold validDot
  rw [if_neg]
  intro hc
  simp only [Bool.and_eq_true, beq_iff_eq] at hc
  exact h hc.1.2

theorem bestEnd_some (s : List Char) (i : Nat) :
    ∀ n j, bestEnd s i n = some j → ∃ p, p < n ∧ validDot s i p = some j := by
  intro n
  induction n with
  | zero => intro j h; cases h
  | succ n ih =>
    intro j h
    rw [bestEnd] at h
    cases hv : validDot s i n with
    | some j0 =>
      rw [hv] at h
      cases h
      exact ⟨n, Nat.lt_succ_self n, hv⟩
    | none =>
      rw [hv] at h
      obtain ⟨p, hp, hvp⟩ := ih j h
      exact ⟨p, Nat.lt_succ_of_lt hp, hvp⟩

theorem bestEnd_eq (s : List Char) (i p j : Nat)
    (hv : validDot s i p = some j)
    (hmax : ∀ q, p < q → validDot s i q = none) :
    ∀ n, p < n → bestEnd s i n = some j := by
  intro n
  induction n with
  | zero => omega
  | succ n ih =>
    intro hpn
    by_cases hn : p = n
    · subst hn
      rw [bestEnd, hv]
    · have h1 : p < n := by omega
      rw [bestEnd, hmax n h1]
      exact ih h1

theorem findStartAux_start (s : List Char) (j : Nat)
    (hg : gitlabAt s 0 = true) (hb : bestEnd s 0 s.length = some j)
    (fuel : Nat) (hf : 0 < fuel) : findStartAux s 0 fuel = some (0, j) := by
  cases fuel with
  | zero => omega
  | succ f => rw [findStartAux, if_pos hg, hb]

theorem findStartAux_inv (s : List Char) :
    ∀ fuel i0 i j, findStartAux s i0 fuel = some (i, j) →
      gitlabAt s i = true ∧ bestEnd s i s.length = some j := by
  intro fuel
  induction fuel with
  | zero => intro i0 i j h; cases h
  | succ f ih =>
    intro i0 i j h
    by_cases hg : gitlabAt s i0 = true
    · rw [findStartAux, if_pos hg] at h
      cases hb : bestEnd s i0 s.length with
      | some j0 =>
        rw [hb] at h
        cases h
        exact ⟨hg, hb⟩
      | none =>
        rw [hb] at h
        exact ih (i0 + 1) i j h
    · rw [findStartAux, if_neg hg] at h
      exact ih (i0 + 1) i j h

theorem parse_domain_structure (s d : List Char)
    (h : parse_domain s = some d) :
    ∃ mid run, d = glChars ++ mid ++ '.' :: run ∧
      mid.all isDotAny = true ∧ run.all isClassChar = true := by
  simp only [parse_domain] at h
  cases hf : findStartAux s 0 s.length with
  | none => rw [hf] at h; cases h
  | some ij =>
    obtain ⟨i, j⟩ := ij
    rw [hf, Option.map_some'] at h
    have hd0 : (s.take j).drop i = d := Option.some.inj h
    have hinv := findStartAux_inv s s.length 0 i j hf
    obtain ⟨p, _, hv⟩ := bestEnd_some s i s.length j hinv.2
    obtain ⟨h6, hdot, hany, hj, hdelim⟩ := validDot_some s i p j hv
    have hp_lt : p < s.length := by
      rcases List.getElem?_eq_some.mp hdot with ⟨hlt, _⟩
      exact hlt
    have hd : d = (s.drop i).take (j - i) := by
      rw [← hd0, List.drop_take]
    have hgl : (s.drop i).take 6 = glChars := by
      have := hinv.1
      simpa [gitlabAt] using this
    have h1 : j - i = 6 + (j - i - 6) := by omega
    have hsplit1 : (s.drop i).take (j - i) =
        glChars ++ (s.drop (i + 6)).take (j - i - 6) :=
      calc (s.drop i).take (j - i)
          = (s.drop i).take (6 + (j - i - 6)) := by rw [← h1]
        _ = (s.drop i).take 6 ++ ((s.drop i).drop 6).take (j - i - 6) :=
            List.take_add _ _ _
        _ = glChars ++ (s.drop (i + 6)).take (j - i - 6) := by
            rw [hgl, List.drop_drop]
    have h2 : j - i - 6 = (p - (i + 6)) + (j - p) := by omega
    have h3 : i + 6 + (p - (i + 6)) = p := by omega
    have hsplit2 : (s.drop (i + 6)).take (j - i - 6) =
        (s.drop (i + 6)).take (p - (i + 6)) ++ (s.drop p).take (j - p) :=
      calc (s.drop (i + 6)).take (j - i - 6)
          = (s.drop (i + 6)).take ((p - (i + 6)) + (j - p)) := by rw [← h2]
        _ = (s.drop (i + 6)).take (p - (i + 6)) ++
              ((s.drop (i + 6)).drop (p - (i + 6))).take (j - p) :=
            List.take_add _ _ _
        _ = (s.drop (i + 6)).take (p - (i + 6)) ++ (s.drop p).take (j - p) := by
            rw [List.drop_drop, h3]
    have hdrop_p : s.drop p = '.' :: s.drop (p + 1) := by
      have hget : s[p] = '.' := by
        rcases List.getElem?_eq_some.mp hdot with ⟨hlt, hval⟩
        exact hval
      rw [List.drop_eq_getElem_cons hp_lt, hget]
    have h4 : j - p = (j - (p + 1)) + 1 := by omega
    have hsplit3 : (s.drop p).take (j - p) =
        '.' :: (s.drop (p + 1)).take (j - (p + 1)) := by
      rw [hdrop_p, h4, List.take_succ_cons]
    have hrun_eq : (s.drop (p + 1)).take (j - (p + 1)) =
        (s.drop (p + 1)).takeWhile isClassChar := by
      have h5 : j - (p + 1) = classRunLen s (p + 1) := by omega
      rw [h5, classRunLen, take_takeWhile_length]
    refine ⟨(s.drop (i + 6)).take (p - (i + 6)),
        (s.drop (p + 1)).takeWhile isClassChar, ?_, ?_, ?_⟩
    · rw [hd, hsplit1, hsplit2, hsplit3, hrun_eq]
      simp
    · simpa [dotAnyAll] using hany
    · rw [List.all_eq_true]
      intro x hx
      exact List.mem_takeWhile_imp hx

theorem take_append_len {u v : List Char} (n : Nat) (h : n = u.length) :
    (u ++ v).take n = u := by
  subst h
  exact List.take_left u v

theorem drop_append_len {u v : List Char} (n : Nat) (h : n = u.length) :
    (u ++ v).drop n = v := by
  subst h
  exact List.drop_left u v

theorem getElem?_append_len {u v : List Char} (n : Nat) (h : n = u.length) :
    (u ++ v)[n]? = v[0]? := by
  subst h
  rw [List.getElem?_append_right (Nat.le_refl u.length)]
  simp

theorem isClassChar_slash : isClassChar '/' = false := by decide

theorem isClassChar_dot : isClassChar '.' = false := by decide

theorem parse_domain_of_shape (mid run J : List Char)
    (hmid : mid.all isDotAny = true) (hrun : run.all isClassChar = true)
    (hJ : '.' ∉ J) :
    parse_domain ((glChars ++ mid ++ '.' :: run) ++ '/' :: J) =
      some (glChars ++ mid ++ '.' :: run) := by
  have hA1 : (glChars ++ mid ++ '.' :: run) ++ '/' :: J =
      glChars ++ (mid ++ '.' :: (run ++ '/' :: J)) := by simp
  have hA2 : (glChars ++ mid ++ '.' :: run) ++ '/' :: J =
      (glChars ++ mid) ++ '.' :: (run ++ '/' :: J) := by simp
  have hA3 : (glChars ++ mid ++ '.' :: run) ++ '/' :: J =
      (glChars ++ mid ++ ['.']) ++ (run ++ '/' :: J) := by simp
  have hrun' : ∀ x ∈ run, isClassChar x = true := List.all_eq_true.mp hrun
  -- the pattern can start at index 0
  have ha : gitlabAt ((glChars ++ mid ++ '.' :: run) ++ '/' :: J) 0 = true := by
    rw [gitlabAt, List.drop_zero, hA1,
      take_append_len 6 (by rfl)]
    simp
  -- the dot of the match lands on the dot of the domain
  have hb : ((glChars ++ mid ++ '.' :: run) ++ '/' :: J)[6 + mid.length]? =
      some '.' := by
    rw [hA2, getElem?_append_len (6 + mid.length) (by simp [glChars]; omega)]
    simp
  -- the `.*` stretch is newline-free
  have hc : dotAnyAll ((glChars ++ mid ++ '.' :: run) ++ '/' :: J) 6
      (6 + mid.length) = true := by
    have h6 : 6 + mid.length - 6 = mid.length := by omega
    rw [dotAnyAll, h6, hA1, drop_append_len 6 (by rfl),
      take_append_len mid.length (by rfl)]
    exact hmid
  -- the greedy class run after the dot is exactly `run`
  have hd2 : classRunLen ((glChars ++ mid ++ '.' :: run) ++ '/' :: J)
      (6 + mid.length + 1) = run.length := by
    rw [classRunLen, hA3, drop_append_len (6 + mid.length + 1)
      (by simp [glChars]; omega),
      takeWhile_run_append run J hrun' '/' isClassChar_slash]
  -- the character after the class run is the '/' separating domain and path
  have he : ((glChars ++ mid ++ '.' :: run) ++ '/' :: J)[6 + mid.length + 1 +
      run.length]? = some '/' := by
    rw [getElem?_append_len (6 + mid.length + 1 + run.length)
      (by simp only [glChars, List.length_append, List.length_cons,
        List.length_nil]; omega)]
    simp
  -- hence the dot position `6 + mid.length` completes a match
  have hf : validDot ((glChars ++ mid ++ '.' :: run) ++ '/' :: J) 0
      (6 + mid.length) = some (6 + mid.length + 1 + run.length) := by
    have := validDot_build ((glChars ++ mid ++ '.' :: run) ++ '/' :: J) 0
      (6 + mid.length) (by omega) hb hc ?_
    · rw [this, hd2]
    · rw [hd2]
      exact Or.inr he
  -- and no later dot position can
  have hg : ∀ q, 6 + mid.length < q →
      validDot ((glChars ++ mid ++ '.' :: run) ++ '/' :: J) 0 q = none := by
    intro q hq
    apply validDot_none_of_no_dot
    intro hdot
    have hmem : '.' ∈ run ++ '/' :: J := by
      rw [hA3, List.getElem?_append_right
        (by simp only [glChars, List.length_append, List.length_cons,
          List.length_nil]; omega)] at hdot
      rcases List.getElem?_eq_some.mp hdot with ⟨hlt, hval⟩
      exact hval ▸ List.getElem_mem hlt
    rcases List.mem_append.mp hmem with hm | hm
    · have := hrun' '.' hm
      rw [isClassChar_dot] at this
      cases this
    · rcases List.mem_cons.mp hm with hm | hm
      · cases hm
      · exact hJ hm
  -- greedy + leftmost-first: the match is (0, |domain|)
  have hlen_lt : 6 + mid.length <
      ((glChars ++ mid ++ '.' :: run) ++ '/' :: J).length := by
    simp only [glChars, List.length_append, List.length_cons, List.length_nil]
    omega
  have hbest : bestEnd ((glChars ++ mid ++ '.' :: run) ++ '/' :: J) 0
      ((glChars ++ mid ++ '.' :: run) ++ '/' :: J).length =
      some (6 + mid.length + 1 + run.length) :=
    bestEnd_eq _ 0 (6 + mid.length) _ hf hg _ hlen_lt
  have hfuel : 0 < ((glChars ++ mid ++ '.' :: run) ++ '/' :: J).length := by
    simp [glChars]
  rw [parse_domain, findStartAux_start _ _ ha hbest _ hfuel, Option.map_some']
  rw [List.drop_zero, take_append_len (6 + mid.length + 1 + run.length)
    (by simp only [glChars, List.length_append, List.length_cons,
      List.length_nil]; omega)]

theorem splitTokens_cons_delim (c : Char) (rest : List Char)
    (h : isDelim c = true) : splitTokens (c :: rest) = splitTokens rest := by
  rw [splitTokens.eq_def]
  simp [h]

theorem splitTokens_singleton (c : Char) (h : isDelim c = false) :
    splitTokens [c] = [[c]] := by
  rw [splitTokens.eq_def]
  simp [h]

theorem splitTokens_cons_cons_delim (c d : Char) (rest' : List Char)
    (hc : isDelim c = false) (hd : isDelim d = true) :
    splitTokens (c :: d :: rest') = [c] :: splitTokens (d :: rest') := by
  rw [splitTokens.eq_def]
  simp [hc, hd]

theorem splitTokens_cons_cons_run (c d : Char) (rest' : List Char)
    (hc : isDelim c = false) (hd : isDelim d = false) :
    splitTokens (c :: d :: rest') =
      match splitTokens (d :: rest') with
      | [] => [[c]]
      | t :: ts => (c :: t) :: ts := by
  rw [splitTokens.eq_def]
  simp [hc, hd]

theorem splitTokens_tokens :
    ∀ (s : List Char) (t : List Char), t ∈ splitTokens s →
      t ≠ [] ∧ ∀ c ∈ t, isDelim c = false := by
  intro s
  induction s with
  | nil => intro t ht; simp [splitTokens] at ht
  | cons c rest ih =>
    intro t ht
    by_cases hc : isDelim c = true
    · rw [splitTokens_cons_delim c rest hc] at ht
      exact ih t ht
    · rw [Bool.not_eq_true] at hc
      cases rest with
      | nil =>
        rw [splitTokens_singleton c hc] at ht
        simp only [List.mem_singleton] at ht
        subst ht
        exact ⟨by simp, by simpa using hc⟩
      | cons d rest' =>
        by_cases hd : isDelim d = true
        · rw [splitTokens_cons_cons_delim c d rest' hc hd] at ht
          rcases List.mem_cons.mp ht with h | h
          · subst h
            exact ⟨by simp, by simpa using hc⟩
          · exact ih t h
        · rw [Bool.not_eq_true] at hd
          rw [splitTokens_cons_cons_run c d rest' hc hd] at ht
          cases hsp : splitTokens (d :: rest') with
          | nil =>
            rw [hsp] at ht
            simp only [List.mem_singleton] at ht
            subst ht
            refine ⟨by simp, ?_⟩
            intro x hx
            rcases List.mem_singleton.mp hx with h
            subst h
            simpa using hc
          | cons t0 ts0 =>
            rw [hsp] at ht
            rcases List.mem_cons.mp ht with h | h
            · subst h
              have h0 := ih t0 (by rw [hsp]; exact List.mem_cons_self t0 ts0)
              refine ⟨by simp, ?_⟩
              intro x hx
              rcases List.mem_cons.mp hx with h | h
              · subst h; simpa using hc
              · exact h0.2 x h
            · exact ih t (by rw [hsp]; exact List.mem_cons_of_mem t0 h)

theorem stripGitLast_getLast :
    ∀ (l : List (List Char)) (x : List Char), l.getLast? = some x →
      stripGitLast l = l.dropLast ++ [stripGit x] := by
  intro l
  induction l with
  | nil => intro x hx; simp at hx
  | cons t ts ih =>
    intro x hx
    cases ts with
    | nil =>
      simp only [List.getLast?_singleton] at hx
      cases hx
      rfl
    | cons a b =>
      have hlast : (a :: b).getLast? = some x := by
        rw [List.getLast?_cons_cons] at hx
        exact hx
      rw [show stripGitLast (t :: a :: b) = t :: stripGitLast (a :: b) from rfl,
        ih x hlast]
      simp

theorem stripGitLast_drop_comm (l : List (List Char)) (h : 2 ≤ l.length) :
    (stripGitLast l).drop 1 = stripGitLast (l.drop 1) := by
  match l, h with
  | a :: b :: rest, _ => rfl

theorem splitTokens_run_append (r : List Char) (c : Char) (rest : List Char)
    (hne : r ≠ []) (hfree : ∀ x ∈ r, isDelim x = false) (hc : isDelim c = true) :
    splitTokens (r ++ c :: rest) = r :: splitTokens rest := by
  induction r with
  | nil => cases hne rfl
  | cons a r' ih =>
    cases r' with
    | nil =>
      have ha := hfree a (by simp)
      rw [List.cons_append, List.nil_append,
        splitTokens_cons_cons_delim a c rest ha hc,
        splitTokens_cons_delim c rest hc]
    | cons b r'' =>
      have ha := hfree a (by simp)
      have hb : isDelim b = false := hfree b (by simp)
      have ih' := ih (by simp) (fun x hx => hfree x (List.mem_cons_of_mem a hx))
      simp only [List.cons_append] at ih' ⊢
      rw [splitTokens_cons_cons_run a b (r'' ++ c :: rest) ha hb, ih']

theorem splitTokens_run (r : List Char) (hne : r ≠ [])
    (hfree : ∀ x ∈ r, isDelim x = false) : splitTokens r = [r] := by
  induction r with
  | nil => cases hne rfl
  | cons a r' ih =>
    cases r' with
    | nil => exact splitTokens_singleton a (hfree a (by simp))
    | cons b r'' =>
      have ha := hfree a (by simp)
      have hb : isDelim b = false := hfree b (by simp)
      rw [splitTokens_cons_cons_run a b r'' ha hb,
        ih (by simp) (fun x hx => hfree x (List.mem_cons_of_mem a hx))]

theorem splitTokens_joinSlash (ts : List (List Char)) (hne : ts ≠ [])
    (hts : ∀ t ∈ ts, t ≠ [] ∧ ∀ c ∈ t, isDelim c = false) :
    splitTokens (joinSlash ts) = ts := by
  induction ts with
  | nil => cases hne rfl
  | cons t ts' ih =>
    cases ts' with
    | nil =>
      rw [show joinSlash [t] = t from rfl]
      exact splitTokens_run t (hts t (by simp)).1
        (fun c hc => (hts t (by simp)).2 c hc)
    | cons t2 ts'' =>
      rw [show joinSlash (t :: t2 :: ts'') =
        t ++ '/' :: joinSlash (t2 :: ts'') from rfl]
      rw [splitTokens_run_append t '/' (joinSlash (t2 :: ts''))
        (hts t (by simp)).1 (fun x hx => (hts t (by simp)).2 x hx) (by decide)]
      rw [ih (by simp) (fun x hx => hts x (List.mem_cons_of_mem t hx))]

theorem mem_joinSlash (ts : List (List Char)) :
    ∀ c, c ∈ joinSlash ts → c = '/' ∨ ∃ t ∈ ts, c ∈ t := by
  induction ts with
  | nil => intro c h; simp [joinSlash] at h
  | cons t ts' ih =>
    intro c h
    cases ts' with
    | nil =>
      rw [show joinSlash [t] = t from rfl] at h
      exact Or.inr ⟨t, by simp, h⟩
    | cons t2 ts'' =>
      rw [show joinSlash (t :: t2 :: ts'') =
        t ++ '/' :: joinSlash (t2 :: ts'') from rfl] at h
      rcases List.mem_append.mp h with h1 | h1
      · exact Or.inr ⟨t, by simp, h1⟩
      · rcases List.mem_cons.mp h1 with h2 | h2
        · exact Or.inl h2
        · rcases ih c h2 with h3 | ⟨t', ht', hc'⟩
          · exact Or.inl h3
          · exact Or.inr ⟨t', List.mem_cons_of_mem t ht', hc'⟩

theorem stripGit_of_no_dot (t : List Char) (h : '.' ∉ t) : stripGit t = t := by
  have hns : ¬ (gitSuffix.isSuffixOf t = true) := by
    intro hsuf
    exact h ((List.isSuffixOf_iff_suffix.mp hsuf).subset (by decide))
  rw [stripGit, if_neg hns]

theorem stripGitLast_eq_self (ts : List (List Char))
    (h : ∀ t ∈ ts, '.' ∉ t) : stripGitLast ts = ts := by
  induction ts with
  | nil => rfl
  | cons t ts' ih =>
    cases ts' with
    | nil =>
      rw [show stripGitLast [t] = [stripGit t] from rfl,
        stripGit_of_no_dot t (h t (by simp))]
    | cons a b =>
      rw [show stripGitLast (t :: a :: b) = t :: stripGitLast (a :: b) from rfl,
        ih (fun x hx => h x (List.mem_cons_of_mem t hx))]

theorem mem_stripGitLast (l : List (List Char)) :
    ∀ t, t ∈ stripGitLast l → ∃ t' ∈ l, t = t' ∨ t = stripGit t' := by
  induction l with
  | nil => intro t ht; simp [stripGitLast] at ht
  | cons a l' ih =>
    intro t ht
    cases l' with
    | nil =>
      rw [show stripGitLast [a] = [stripGit a] from rfl] at ht
      rcases List.mem_singleton.mp ht with h
      exact ⟨a, by simp, Or.inr h⟩
    | cons b l'' =>
      rw [show stripGitLast (a :: b :: l'') =
        a :: stripGitLast (b :: l'') from rfl] at ht
      rcases List.mem_cons.mp ht with h | h
      · exact ⟨a, by simp, Or.inl h⟩
      · obtain ⟨t', ht', hor⟩ := ih t h
        exact ⟨t', List.mem_cons_of_mem a ht', hor⟩

theorem stripGit_subset (t : List Char) : stripGit t ⊆ t := by
  rw [stripGit]
  split
  · exact List.take_subset _ _
  · exact fun x hx => hx

theorem parse_tokens_ts_props (s : List Char) (ts : List (List Char))
    (h : parse_tokens s = some ts) :
    ts ≠ [] ∧ ∀ t ∈ ts, ∀ c ∈ t, isDelim c = false := by
  simp only [parse_tokens] at h
  by_cases hl : (splitTokens s).length > 1
  · rw [if_pos hl] at h
    cases h
    constructor
    · intro hnil
      have hlen := congrArg List.length hnil
      rw [List.length_drop, stripGitLast_length] at hlen
      simp only [List.length_nil] at hlen
      omega
    · intro t ht c hc
      have ht' : t ∈ stripGitLast (splitTokens s) := List.mem_of_mem_drop ht
      obtain ⟨t', ht'', hor⟩ := mem_stripGitLast (splitTokens s) t ht'
      have hfree := (splitTokens_tokens s t' ht'').2
      rcases hor with h1 | h1
      · exact hfree c (h1 ▸ hc)
      · exact hfree c (stripGit_subset t' (h1 ▸ hc))
  · rw [if_neg hl] at h
    cases h

theorem parse_tokens_append_domain (d : List Char) (ts : List (List Char))
    (hd_ne : d ≠ []) (hd_free : ∀ c ∈ d, isDelim c = false)
    (hts_ne : ts ≠ [])
    (hts : ∀ t ∈ ts, t ≠ [] ∧ (∀ c ∈ t, isDelim c = false) ∧ '.' ∉ t) :
    parse_tokens (d ++ '/' :: joinSlash ts) = some ts := by
  have hsplit : splitTokens (d ++ '/' :: joinSlash ts) = d :: ts := by
    rw [splitTokens_run_append d '/' (joinSlash ts) hd_ne hd_free (by decide),
      splitTokens_joinSlash ts hts_ne
        (fun t ht => ⟨(hts t ht).1, (hts t ht).2.1⟩)]
  simp only [parse_tokens, hsplit]
  rw [if_pos]
  · cases ts with
    | nil => cases hts_ne rfl
    | cons a b =>
      rw [show stripGitLast (d :: a :: b) = d :: stripGitLast (a :: b) from rfl]
      simp only [List.drop_succ_cons, List.drop_zero]
      rw [stripGitLast_eq_self (a :: b) (fun t ht => (hts t ht).2.2)]
  · cases ts with
    | nil => cases hts_ne rfl
    | cons a b => simp

/-! ### Claim theorems -/

/-- Claim C3. Construction of a cache (`Cache::new`) or credential store
(`TokenStore::new`) over an encrypted store yields the empty default value
when the store read fails with `IOError` or when the decrypted bytes fail
to deserialize; when the bytes deserialize the deserialized value is
returned; and a `DecryptError` (wrong passphrase or corrupted ciphertext)
is never treated as an empty cache: both constructors terminate the
process with exit status `1 ≠ 0`.  Conversely the default can only arise
from the `IOError`/deserialization-mismatch recovery paths (or from bytes
that genuinely deserialize to the default value itself). -/
theorem cache_new_recovery_policy :
    (∀ (T : Type) (deser : List Nat → Option T) (dflt : T) (content : List Nat),
      Cache.new deser dflt (ReadResult.err CryptoError.IOErr) = NewOutcome.ok dflt ∧
      (deser content = none →
        Cache.new deser dflt (ReadResult.ok content) = NewOutcome.ok dflt) ∧
      (∀ v, deser content = some v →
        Cache.new deser dflt (ReadResult.ok content) = NewOutcome.ok v) ∧
      (Cache.new deser dflt (ReadResult.err CryptoError.DecryptError) =
        NewOutcome.exitProcess 1 ∧ (1 : Nat) ≠ 0) ∧
      (∀ r, Cache.new deser dflt r = NewOutcome.ok dflt →
        r = ReadResult.err CryptoError.IOErr ∨
        ∃ c, r = ReadResult.ok c ∧ (deser c = none ∨ deser c = some dflt))) ∧
    (∀ (deser : List Nat → Option TokenMap) (content : List Nat),
      TokenStore.new deser (ReadResult.err CryptoError.IOErr) = NewOutcome.ok [] ∧
      (deser content = none →
        TokenStore.new deser (ReadResult.ok content) = NewOutcome.ok []) ∧
      (∀ v, deser content = some v →
        TokenStore.new deser (ReadResult.ok content) = NewOutcome.ok v) ∧
      (TokenStore.new deser (ReadResult.err CryptoError.DecryptError) =
        NewOutcome.exitProcess 1 ∧ (1 : Nat) ≠ 0)) := by
  constructor
  · intro T deser dflt content
    refine ⟨rfl, ?_, ?_, ⟨rfl, one_ne_zero⟩, ?_⟩
    · intro h; simp [Cache.new, h]
    · intro v h; simp [Cache.new, h]
    · intro r h
      cases r with
      | ok c =>
        right
        refine ⟨c, rfl, ?_⟩
        cases hd : deser c with
        | none => exact Or.inl rfl
        | some v =>
          right
          simp only [Cache.new, hd] at h
          cases h
          rfl
      | err e =>
        cases e with
        | DecryptError => simp [Cache.new] at h
        | EncryptError => simp [Cache.new] at h
        | IOErr => exact Or.inl rfl
  · intro deser content
    refine ⟨rfl, ?_, ?_, ⟨rfl, one_ne_zero⟩⟩
    · intro h; simp [TokenStore.new, h]
    · intro v h; simp [TokenStore.new, h]

/-- Witness for C3 at concrete inputs: a failing deserializer on readable
bytes degrades to the default. -/
theorem cache_new_recovery_policy_witness :
    Cache.new (fun _ => (none : Option Nat)) 0 (ReadResult.ok [7]) =
      NewOutcome.ok 0 ∧
    TokenStore.new (fun _ => none) (ReadResult.ok [7]) = NewOutcome.ok [] :=
  ⟨((cache_new_recovery_policy.1 Nat (fun _ => none) 0 [7]).2.1) rfl,
   ((cache_new_recovery_policy.2 (fun _ => none) [7]).2.1) rfl⟩

/-- Claim C6. For the same raw remote URL string, `from_disk` (parsing the
origin remote's fetch URL) and `from_web` agree exactly: `from_disk` is
`from_web` with the `resource` field overwritten to `Repo`, so
`identifier`, `url`, `domain` and `tokens` — in particular the cache key —
coincide, and `from_web` always leaves `resource` unset. -/
theorem from_disk_from_web_agree :
    ∀ u : List Char,
      from_disk u =
        (from_web u).map (fun m => { m with resource := some Resource.Repo }) ∧
      ∀ m, from_web u = some m → m.resource = none := by
  intro u
  constructor
  · cases hd : parse_domain u with
    | none => simp [from_disk, from_web, hd]
    | some d =>
      cases ht : parse_tokens u with
      | none => simp [from_disk, from_web, hd, ht]
      | some ts => simp [from_disk, from_web, hd, ht]
  · intro m hm
    cases hd : parse_domain u with
    | none => simp [from_web, hd] at hm
    | some d =>
      cases ht : parse_tokens u with
      | none => simp [from_web, hd, ht] at hm
      | some ts =>
        simp only [from_web, hd, ht, Option.bind_eq_bind, Option.some_bind] at hm
        cases hm
        rfl

/-- Witness for C6: the git-style remote of the repository's own test
table round-trips through both entry paths with the same fields. -/
theorem from_disk_from_web_agree_witness :
    from_disk "git@gitlab.com:org/group/project.git".toList =
      (from_web "git@gitlab.com:org/group/project.git".toList).map
        (fun m => { m with resource := some Resource.Repo }) ∧
    ∀ m, from_web "git@gitlab.com:org/group/project.git".toList = some m →
      m.resource = none :=
  from_disk_from_web_agree "git@gitlab.com:org/group/project.git".toList

/-- Claim C8. `CachedResources::insert` derives the key from `meta`
preferring `full_path`, falling back to `path_with_namespace`, and panics
when both are absent; after storing, the in-memory entry is retrievable
via `get` under the derived key, and the resulting in-memory map does not
depend on whether the persist succeeded (a persist failure only logs). -/
theorem cached_resources_insert_spec :
    ∀ (m : GitlabCache.ResourceMap) (meta : GitlabResourceMeta)
      (vars : List GitlabVariable) (persistOk : Bool),
      (∀ p, meta.full_path = some p →
        (GitlabCache.insert m meta vars persistOk).1 =
          NewOutcome.ok (GitlabCache.hmInsert m p
            { meta := meta, vars := vars }) ∧
        ∀ m', (GitlabCache.insert m meta vars persistOk).1 = NewOutcome.ok m' →
          (GitlabCache.get m' p).1 = some { meta := meta, vars := vars }) ∧
      (meta.full_path = none → ∀ p, meta.path_with_namespace = some p →
        (GitlabCache.insert m meta vars persistOk).1 =
          NewOutcome.ok (GitlabCache.hmInsert m p
            { meta := meta, vars := vars }) ∧
        ∀ m', (GitlabCache.insert m meta vars persistOk).1 = NewOutcome.ok m' →
          (GitlabCache.get m' p).1 = some { meta := meta, vars := vars }) ∧
      (meta.full_path = none → meta.path_with_namespace = none →
        (GitlabCache.insert m meta vars persistOk).1 = NewOutcome.panicked) ∧
      (GitlabCache.insert m meta vars true).1 =
        (GitlabCache.insert m meta vars false).1 := by
  intro m meta vars persistOk
  refine ⟨?_, ?_, ?_, ?_⟩
  · intro p hp
    constructor
    · simp [GitlabCache.insert, GitlabCache.deriveIdentifier, hp]
    · intro m' hm'
      simp only [GitlabCache.insert, GitlabCache.deriveIdentifier, hp] at hm'
      cases hm'
      simp [GitlabCache.get, GitlabCache.hmGet_hmInsert_self]
  · intro hfp p hp
    constructor
    · simp [GitlabCache.insert, GitlabCache.deriveIdentifier, hfp, hp]
    · intro m' hm'
      simp only [GitlabCache.insert, GitlabCache.deriveIdentifier, hfp, hp] at hm'
      cases hm'
      simp [GitlabCache.get, GitlabCache.hmGet_hmInsert_self]
  · intro hfp hpwn
    simp [GitlabCache.insert, GitlabCache.deriveIdentifier, hfp, hpwn]
  · cases h : GitlabCache.deriveIdentifier meta <;>
      simp [GitlabCache.insert, h]

/-- Witness for C8 at a concrete group meta: the entry lands under the
`full_path` key and survives a failed persist. -/
theorem cached_resources_insert_spec_witness :
    (GitlabCache.insert [] { id := 5, full_path := some "org/group".toList,
                             path_with_namespace := none } [] false).1 =
      NewOutcome.ok (GitlabCache.hmInsert [] "org/group".toList
        { meta := { id := 5, full_path := some "org/group".toList,
                    path_with_namespace := none },
          vars := [] }) :=
  ((cached_resources_insert_spec []
      { id := 5, full_path := some "org/group".toList, path_with_namespace := none }
      [] false).1 "org/group".toList rfl).1

/-- Claim C10. `get` and `list` leave the in-memory map unchanged, and
`insert` changes at most the entry under the identifier derived from
`meta`: every other identifier reads exactly as before. -/
theorem cached_resources_frame :
    ∀ (m : GitlabCache.ResourceMap) (id : List Char),
      (GitlabCache.get m id).2 = m ∧
      (GitlabCache.list m).2 = m ∧
      ∀ (meta : GitlabResourceMeta) (vars : List GitlabVariable)
        (persistOk : Bool) (m' : GitlabCache.ResourceMap),
        (GitlabCache.insert m meta vars persistOk).1 = NewOutcome.ok m' →
        GitlabCache.deriveIdentifier meta ≠ some id →
        (GitlabCache.get m' id).1 = (GitlabCache.get m id).1 := by
  intro m id
  refine ⟨rfl, rfl, ?_⟩
  intro meta vars persistOk m' hm' hne
  cases hd : GitlabCache.deriveIdentifier meta with
  | none => simp [GitlabCache.insert, hd] at hm'
  | some k =>
    simp only [GitlabCache.insert, hd] at hm'
    cases hm'
    have hik : id ≠ k := fun h => hne (h ▸ hd)
    simp [GitlabCache.get, GitlabCache.hmGet_hmInsert_ne m k id _ hik]

/-- Witness for C10: inserting a project meta leaves an unrelated key's
lookup unchanged. -/
theorem cached_resources_frame_witness :
    (GitlabCache.get (GitlabCache.hmInsert [] "org/g/p".toList
          { meta := { id := 9, full_path := none,
                      path_with_namespace := some "org/g/p".toList },
            vars := [] }) "other".toList).1 =
      (GitlabCache.get [] "other".toList).1 :=
  (cached_resources_frame [] "other".toList).2.2
    { id := 9, full_path := none, path_with_namespace := some "org/g/p".toList }
    [] true _ rfl (by decide)

/-- Claim C9. `parse_tokens` only ever returns a sequence with at least one
element; every `UriMeta` the resolver produces therefore has non-empty
`tokens`, and on such tokens `resource_from_uri` never reaches the
underflowing slice bound `tokens.len() - 1` (the `none`/panic outcome):
resolution on an empty token sequence is impossible by construction. -/
theorem tokens_nonempty_no_underflow :
    (∀ s ts, parse_tokens s = some ts → 0 < ts.length) ∧
    (∀ p m, from_web p = some m → 0 < m.tokens.length) ∧
    (∀ (domain : List Char) (groups : List GitlabResourceMeta)
       (projects : Nat → List GitlabResourceMeta) (tokens : List (List Char)),
      tokens ≠ [] → (resource_from_uri domain groups projects tokens).isSome) ∧
    (∀ p m (domain : List Char) (groups : List GitlabResourceMeta)
       (projects : Nat → List GitlabResourceMeta), from_web p = some m →
      (resource_from_uri domain groups projects m.tokens).isSome) := by
  have h1 : ∀ s ts, parse_tokens s = some ts → 0 < ts.length := by
    intro s ts h
    simp only [parse_tokens] at h
    by_cases hl : (splitTokens s).length > 1
    · rw [if_pos hl] at h
      cases h
      rw [List.length_drop, stripGitLast_length]
      omega
    · rw [if_neg hl] at h
      cases h
  have h2 : ∀ p m, from_web p = some m → 0 < m.tokens.length := by
    intro p m h
    cases hd : parse_domain p with
    | none => simp [from_web, hd] at h
    | some d =>
      cases ht : parse_tokens p with
      | none => simp [from_web, hd, ht] at h
      | some ts =>
        simp only [from_web, hd, ht, Option.bind_eq_bind, Option.some_bind] at h
        cases h
        exact h1 p ts ht
  have h3 : ∀ (domain : List Char) (groups : List GitlabResourceMeta)
      (projects : Nat → List GitlabResourceMeta) (tokens : List (List Char)),
      tokens ≠ [] → (resource_from_uri domain groups projects tokens).isSome := by
    intro domain groups projects tokens hne
    have hlen : tokens.length ≠ 0 := by
      simpa [List.length_eq_zero] using hne
    cases hf : groups.find? (fun g => g.full_path == some (joinSlash tokens)) with
    | some g => simp [resource_from_uri, hf]
    | none =>
      simp only [resource_from_uri, hf]
      rw [if_neg hlen]
      cases hf2 : groups.find? (fun g =>
          g.full_path == some (joinSlash (tokens.take (tokens.length - 1)))) with
      | none => simp
      | some cg =>
        cases hf3 : (projects cg.id).find? (fun p =>
            p.path_with_namespace == some (joinSlash tokens)) with
        | none => simp [hf3]
        | some pr => simp [hf3]
  refine ⟨h1, h2, h3, ?_⟩
  intro p m domain groups projects h
  have := h2 p m h
  apply h3
  intro hnil
  rw [hnil] at this
  simp at this

/-- Witness for C9: the repository's own test URL yields a non-empty token
list, and resolution on it cannot panic. -/
theorem tokens_nonempty_no_underflow_witness :
    0 < ["org".toList, "group".toList, "project".toList].length ∧
    (resource_from_uri "gitlab.com".toList [] (fun _ => [])
      ["org".toList, "group".toList, "project".toList]).isSome :=
  ⟨tokens_nonempty_no_underflow.1 "git@gitlab.com:org/group/project.git".toList
      ["org".toList, "group".toList, "project".toList] (by decide),
   tokens_nonempty_no_underflow.2.2.1 "gitlab.com".toList [] (fun _ => [])
      ["org".toList, "group".toList, "project".toList] (by decide)⟩

/-- Claim C2, counterexample. The claim says the listing operation issues one
concurrent request per *remaining* page `2..=N` beyond the initial request;
the source's spawn loop is `for i in 1..=total_pages`, so for a
three-page listing the spawned page requests are `[1, 2, 3]` — page 1 is
fetched a second time — not `[2, 3]`. -/
theorem get_all_pages_spawns_page_one_again :
    get_all_pages { totalPagesHeader := some 3, page := fun i => ([i] : List Nat) } =
      Except.ok ([1, 2, 3], [1, 2, 3]) ∧
    ([1, 2, 3] : List Nat) ≠ [2, 3] :=
  ⟨rfl, by decide⟩

/-- Claim C2, amended. With total page count `N` read from the first
request's `x-total-pages` header (its absence is the
`"expected paged result"` error), the operation spawns exactly one request
per page `1..=N` — the first page is requested again, its initial response
body having been discarded — and the returned list is the concatenation of
the pages' item arrays in page order `1, 2, …, N`, the merge following
spawn order, not completion order. -/
theorem get_all_pages_page_order :
    ∀ (T : Type) (pages : Nat → List T) (N : Nat),
      get_all_pages { totalPagesHeader := none, page := pages } =
        (Except.error "expected paged result but got something else" :
          Except String (List T × List Nat)) ∧
      get_all_pages { totalPagesHeader := some N, page := pages } =
        Except.ok ((List.range N).flatMap (fun i => pages (i + 1)),
                   (List.range N).map (fun i => i + 1)) ∧
      ((List.range N).map (fun i => i + 1)).length = N ∧
      (∀ k, k < N → ((List.range N).map (fun i => i + 1))[k]? = some (k + 1)) ∧
      (∀ M, N = M + 1 →
        (List.range N).flatMap (fun i => pages (i + 1)) =
          pages 1 ++ (List.range M).flatMap (fun i => pages (i + 2))) := by
  intro T pages N
  refine ⟨rfl, ?_, by simp, ?_, ?_⟩
  · simp [get_all_pages, List.map_map, List.flatMap_map, Function.comp]
  · intro k hk
    rw [List.getElem?_map, List.getElem?_range hk]
    rfl
  · intro M hM
    subst hM
    rw [List.range_succ_eq_map]
    simp [List.flatMap_cons, List.flatMap_map, Nat.succ_eq_add_one]

/-- Witness for C2 at a concrete two-page listing. -/
theorem get_all_pages_page_order_witness :
    get_all_pages { totalPagesHeader := some 2, page := fun i => ([i] : List Nat) } =
      Except.ok ([1, 2], [1, 2]) ∧
    ((List.range 2).map (fun i => i + 1))[0]? = some (0 + 1) := by
  constructor
  · exact ((get_all_pages_page_order Nat (fun i => [i]) 2).2.1).trans (by rfl)
  · exact (get_all_pages_page_order Nat (fun i => [i]) 2).2.2.2.1 0 (by decide)

/-- Claim C1. `resource_from_uri` on a group listing and non-empty tokens:
when some group's `full_path` equals the tokens joined by `"/"`, the first
such group is returned as the resource (kind Group: the group's meta, under
the `/groups/{id}` URL) and the project listings are never consulted;
otherwise the group list is searched for `full_path` equal to the tokens
minus the last segment joined by `"/"`, failing with
`"no containing group found"` when no group matches, and only then that
group's projects are searched for `path_with_namespace` equal to the full
joined path, failing with `"found no gitlab resource"` when none matches. -/
theorem resource_from_uri_spec :
    ∀ (domain : List Char) (groups : List GitlabResourceMeta)
      (projects projects' : Nat → List GitlabResourceMeta)
      (tokens : List (List Char)), tokens ≠ [] →
      ((∃ g ∈ groups, g.full_path = some (joinSlash tokens)) →
        (groups.find? (fun g => g.full_path == some (joinSlash tokens))).isSome) ∧
      (∀ g, groups.find? (fun g => g.full_path == some (joinSlash tokens)) = some g →
        g ∈ groups ∧ g.full_path = some (joinSlash tokens) ∧
        resource_from_uri domain groups projects tokens =
          some (Except.ok { url := groupUrl domain g.id, meta := g }) ∧
        resource_from_uri domain groups projects tokens =
          resource_from_uri domain groups projects' tokens) ∧
      (groups.find? (fun g => g.full_path == some (joinSlash tokens)) = none →
        (groups.find? (fun g =>
            g.full_path == some (joinSlash (tokens.take (tokens.length - 1)))) = none →
          resource_from_uri domain groups projects tokens =
            some (Except.error "no containing group found")) ∧
        (∀ cg, groups.find? (fun g =>
            g.full_path == some (joinSlash (tokens.take (tokens.length - 1)))) = some cg →
          (∀ pr, (projects cg.id).find? (fun p =>
              p.path_with_namespace == some (joinSlash tokens)) = some pr →
            pr ∈ projects cg.id ∧ pr.path_with_namespace = some (joinSlash tokens) ∧
            resource_from_uri domain groups projects tokens =
              some (Except.ok { url := projectUrl domain pr.id, meta := pr })) ∧
          ((projects cg.id).find? (fun p =>
              p.path_with_namespace == some (joinSlash tokens)) = none →
            resource_from_uri domain groups projects tokens =
              some (Except.error "found no gitlab resource")))) := by
  intro domain groups projects projects' tokens hne
  have hlen : tokens.length ≠ 0 := by simpa [List.length_eq_zero] using hne
  refine ⟨?_, ?_, ?_⟩
  · rintro ⟨g, hg, hfp⟩
    exact List.find?_isSome.mpr ⟨g, hg, by simp [hfp]⟩
  · intro g hg
    have hmem := List.mem_of_find?_eq_some hg
    have hfp : g.full_path = some (joinSlash tokens) := by
      simpa using List.find?_some hg
    exact ⟨hmem, hfp, by simp [resource_from_uri, hg],
      by simp [resource_from_uri, hg]⟩
  · intro hnone
    constructor
    · intro hnone2
      simp [resource_from_uri, hnone, hnone2, hlen]
    · intro cg hcg
      constructor
      · intro pr hpr
        have hmem := List.mem_of_find?_eq_some hpr
        have hpwn : pr.path_with_namespace = some (joinSlash tokens) := by
          simpa using List.find?_some hpr
        exact ⟨hmem, hpwn, by simp [resource_from_uri, hnone, hcg, hpr, hlen]⟩
      · intro hprn
        simp [resource_from_uri, hnone, hcg, hprn, hlen]

/-- Witness for C1: the spec's own resolution scenario — group list holds
`org/group` only, requested path `org/group/project` falls through to the
project search of `org/group` and resolves the project. -/
theorem resource_from_uri_spec_witness :
    resource_from_uri "gitlab.com".toList
      [{ id := 1, full_path := some "org/group".toList,
         path_with_namespace := none }]
      (fun _ => [{ id := 2, full_path := none,
                   path_with_namespace := some "org/group/project".toList }])
      ["org".toList, "group".toList, "project".toList] =
      some (Except.ok { url := projectUrl "gitlab.com".toList 2,
                        meta := { id := 2, full_path := none,
                                  path_with_namespace :=
                                    some "org/group/project".toList } }) := by
  have h := resource_from_uri_spec "gitlab.com".toList
      [{ id := 1, full_path := some "org/group".toList,
         path_with_namespace := none }]
      (fun _ => [{ id := 2, full_path := none,
                   path_with_namespace := some "org/group/project".toList }])
      (fun _ => [{ id := 2, full_path := none,
                   path_with_namespace := some "org/group/project".toList }])
      ["org".toList, "group".toList, "project".toList] (by decide)
  exact (((h.2.2 (by decide)).2
      { id := 1, full_path := some "org/group".toList,
        path_with_namespace := none } (by decide)).1
      { id := 2, full_path := none,
        path_with_namespace := some "org/group/project".toList }
      (by decide)).2.2

/-- Claim C5. `parse_tokens` splits the input into the maximal runs avoiding
the delimiters `':'`, `'|'`, `'/'` (so every raw token is non-empty and
delimiter-free), returns `none` when fewer than two raw tokens exist, and
otherwise drops the first raw token (the domain occurrence) and strips a
trailing `".git"` from the final remaining token only; in particular
`parse_tokens "git@gitlab.com:org/group/project.git" =
["org", "group", "project"]`. -/
theorem parse_tokens_spec :
    parse_tokens "git@gitlab.com:org/group/project.git".toList =
      some ["org".toList, "group".toList, "project".toList] ∧
    (∀ (s t : List Char), t ∈ splitTokens s →
      t ≠ [] ∧ ∀ c ∈ t, isDelim c = false) ∧
    (∀ s, (splitTokens s).length < 2 → parse_tokens s = none) ∧
    (∀ s ts, parse_tokens s = some ts →
      2 ≤ (splitTokens s).length ∧
      ts = stripGitLast ((splitTokens s).drop 1) ∧
      ∀ x, ((splitTokens s).drop 1).getLast? = some x →
        ts = ((splitTokens s).drop 1).dropLast ++ [stripGit x]) := by
  refine ⟨by decide, splitTokens_tokens, ?_, ?_⟩
  · intro s hs
    simp only [parse_tokens]
    rw [if_neg (by omega)]
  · intro s ts h
    simp only [parse_tokens] at h
    by_cases hl : (splitTokens s).length > 1
    · rw [if_pos hl] at h
      cases h
      refine ⟨by omega, ?_, ?_⟩
      · exact stripGitLast_drop_comm _ (by omega)
      · intro x hx
        rw [stripGitLast_drop_comm _ (by omega), stripGitLast_getLast _ x hx]
    · rw [if_neg hl] at h
      cases h

/-- Witness for C5: a lone raw token (`"malformed.git"` has no delimiter at
all) makes `parse_tokens` fail, and the project URL of the test table
parses with `.git` stripped from the last token only. -/
theorem parse_tokens_spec_witness :
    parse_tokens "malformed.git".toList = none ∧
    "org".toList ≠ [] :=
  ⟨parse_tokens_spec.2.2.1 "malformed.git".toList (by decide),
   (parse_tokens_spec.2.1 "git@gitlab.com:org/group/project.git".toList
      "org".toList (by decide)).1⟩

/-- Claim C7, counterexample. On `"gitlab.com/a:b"` the recognized gitlab
domain is `"gitlab.com"`, and the character immediately following it is
`'/'`, not `':'` — so under the claim nothing should be rewritten.  Yet
`parse_source` rewrites the first `':'` of the whole input (the one inside
`"a:b"`), producing `"gitlab.com/a/b"`. -/
theorem parse_source_rewrites_first_colon_anywhere :
    parse_domain "gitlab.com/a:b".toList = some "gitlab.com".toList ∧
    ("gitlab.com/a:b".toList)[10]? = some '/' ∧
    parse_source "gitlab.com/a:b".toList none =
      Source.Web "gitlab.com/a/b".toList ∧
    Source.Web "gitlab.com/a/b".toList ≠
      Source.Web "gitlab.com/a:b".toList :=
  ⟨by decide, by decide, by decide, by decide⟩

/-- Claim C7, amended. An input matching the gitlab domain pattern is
classified as a web source with the *first* literal `':'` of the whole
input — not necessarily the one following the domain — rewritten to `'/'`
(at most one replacement, none when the input has no `':'`); a
non-matching input is classified as a disk path in which *every* `'~'`
(in particular a leading one) is replaced by the caller's home directory,
unchanged when `HOME` is absent. -/
theorem parse_source_spec :
    (∀ input home, webpatternMatches input = true →
      parse_source input home = Source.Web (replaceFirstColon input)) ∧
    (∀ (pre post : List Char), ':' ∉ pre →
      replaceFirstColon (pre ++ ':' :: post) = pre ++ '/' :: post) ∧
    (∀ s : List Char, ':' ∉ s → replaceFirstColon s = s) ∧
    (∀ input h, webpatternMatches input = false →
      parse_source input (some h) = Source.Disk (replaceTilde h input)) ∧
    (∀ input, webpatternMatches input = false →
      parse_source input none = Source.Disk input) ∧
    (∀ (h pre post : List Char), '~' ∉ pre →
      replaceTilde h (pre ++ '~' :: post) = pre ++ h ++ replaceTilde h post) ∧
    (∀ (h s : List Char), '~' ∉ s → replaceTilde h s = s) := by
  refine ⟨?_, ?_, ?_, ?_, ?_, ?_, ?_⟩
  · intro input home hm
    simp [parse_source, hm]
  · intro pre post hpre
    induction pre with
    | nil => simp [replaceFirstColon]
    | cons a l ih =>
      have ha : a ≠ ':' := fun h => hpre (h ▸ List.mem_cons_self a l)
      simp only [List.cons_append, replaceFirstColon, if_neg ha, List.append_eq]
      rw [ih (fun h => hpre (List.mem_cons_of_mem a h))]
  · intro s hs
    induction s with
    | nil => rfl
    | cons a l ih =>
      have ha : a ≠ ':' := fun h => hs (h ▸ List.mem_cons_self a l)
      simp only [replaceFirstColon, if_neg ha]
      rw [ih (fun h => hs (List.mem_cons_of_mem a h))]
  · intro input h hm
    simp [parse_source, hm]
  · intro input hm
    simp [parse_source, hm]
  · intro h pre post hpre
    induction pre with
    | nil => simp [replaceTilde]
    | cons a l ih =>
      have ha : a ≠ '~' := fun hh => hpre (hh ▸ List.mem_cons_self a l)
      simp only [List.cons_append, replaceTilde, if_neg ha, List.append_eq]
      rw [ih (fun hh => hpre (List.mem_cons_of_mem a hh))]
  · intro h s hs
    induction s with
    | nil => rfl
    | cons a l ih =>
      have ha : a ≠ '~' := fun hh => hs (hh ▸ List.mem_cons_self a l)
      simp only [replaceTilde, if_neg ha]
      rw [ih (fun hh => hs (List.mem_cons_of_mem a hh))]

/-- Witness for C7 at the repository's own test inputs. -/
theorem parse_source_spec_witness :
    parse_source "gitlab.com:org/foo".toList (some "/h".toList) =
      Source.Web (replaceFirstColon "gitlab.com:org/foo".toList) ∧
    replaceFirstColon ("gitlab.com".toList ++ ':' :: "org/foo".toList) =
      "gitlab.com".toList ++ '/' :: "org/foo".toList ∧
    parse_source "~/git/foo".toList (some "/h".toList) =
      Source.Disk (replaceTilde "/h".toList "~/git/foo".toList) :=
  ⟨parse_source_spec.1 "gitlab.com:org/foo".toList (some "/h".toList) (by decide),
   parse_source_spec.2.1 "gitlab.com".toList "org/foo".toList (by decide),
   parse_source_spec.2.2.2.1 "~/git/foo".toList "/h".toList (by decide)⟩

/-- Claim C4, counterexample.  On input `"gitlab.com/a.b/c"` the greedy domain
regex swallows the dotted path segment: the resolver succeeds with
`domain = "gitlab.com/a.b"`, `tokens = ["a.b", "c"]` and
`url = "gitlab.com/a.b/a.b/c"`; `identifier` and `url` satisfy their
equations, but re-parsing the url yields domain `"gitlab.com/a.b/a.b"` and
tokens `["a.b", "a.b", "c"]` — both differ from the original, refuting the
round-trip part of the claim. -/
theorem from_web_reparse_fails :
    from_web "gitlab.com/a.b/c".toList =
      some { identifier := "a.b/c".toList,
             url := "gitlab.com/a.b/a.b/c".toList,
             domain := "gitlab.com/a.b".toList,
             tokens := ["a.b".toList, "c".toList],
             resource := none } ∧
    parse_domain "gitlab.com/a.b/a.b/c".toList =
      some "gitlab.com/a.b/a.b".toList ∧
    some "gitlab.com/a.b/a.b".toList ≠ some "gitlab.com/a.b".toList ∧
    parse_tokens "gitlab.com/a.b/a.b/c".toList =
      some ["a.b".toList, "a.b".toList, "c".toList] ∧
    (["a.b".toList, "a.b".toList, "c".toList] : List (List Char)) ≠
      ["a.b".toList, "c".toList] :=
  ⟨by decide, by decide, by decide, by decide, by decide⟩

/-- Claim C4, amended. For every `UriMeta` produced by `from_web`,
`identifier = tokens.join "/"` and `url = domain ++ "/" ++ identifier`
hold unconditionally; and re-parsing `url` with `parse_domain` and
`parse_tokens` yields the same domain and the same tokens *provided* the
extracted domain contains no delimiter (`':'`, `'|'`, `'/'`) and every
token is non-empty and contains no `'.'` — the counterexample shows the
greedy domain pattern breaks the round trip when a token carries a dot. -/
theorem from_web_roundtrip :
    ∀ p m, from_web p = some m →
      (m.identifier = joinSlash m.tokens ∧
       m.url = make_url m.domain m.tokens ∧
       m.url = m.domain ++ '/' :: m.identifier) ∧
      ((∀ c ∈ m.domain, isDelim c = false) →
       (∀ t ∈ m.tokens, t ≠ [] ∧ '.' ∉ t) →
       parse_domain m.url = some m.domain ∧
       parse_tokens m.url = some m.tokens) := by
  intro p m hm
  cases hd : parse_domain p with
  | none => simp [from_web, hd] at hm
  | some d =>
    cases ht : parse_tokens p with
    | none => simp [from_web, hd, ht] at hm
    | some ts =>
      simp only [from_web, hd, ht, Option.bind_eq_bind, Option.some_bind]
        at hm
      cases hm
      refine ⟨⟨rfl, rfl, rfl⟩, ?_⟩
      intro hdom htok
      obtain ⟨mid, run, hds, hmid, hrun⟩ := parse_domain_structure p d hd
      have hprops := parse_tokens_ts_props p ts ht
      have hJ : '.' ∉ joinSlash ts := by
        intro hcmem
        rcases mem_joinSlash ts '.' hcmem with hc | ⟨t, ht', hct⟩
        · exact absurd hc (by decide)
        · exact (htok t ht').2 hct
      constructor
      · show parse_domain (make_url d ts) = some d
        rw [make_url, hds]
        exact parse_domain_of_shape mid run (joinSlash ts) hmid hrun hJ
      · show parse_tokens (make_url d ts) = some ts
        rw [make_url]
        refine parse_tokens_append_domain d ts ?_ hdom hprops.1 ?_
        · rw [hds]; simp [glChars]
        · intro t ht'
          exact ⟨(htok t ht').1, hprops.2 t ht', (htok t ht').2⟩

/-- Witness for C4: the repository's own test remote has a delimiter-free
domain and dot-free tokens, so its synthesized url re-parses to the same
domain and tokens. -/
theorem from_web_roundtrip_witness :
    parse_domain "gitlab.com/org/group/project".toList =
      some "gitlab.com".toList ∧
    parse_tokens "gitlab.com/org/group/project".toList =
      some ["org".toList, "group".toList, "project".toList] :=
  (from_web_roundtrip "git@gitlab.com:org/group/project.git".toList
    { identifier := "org/group/project".toList,
      url := "gitlab.com/org/group/project".toList,
      domain := "gitlab.com".toList,
      tokens := ["org".toList, "group".toList, "project".toList],
      resource := none }
    (by decide)).2 (by decide) (by decide)

end Ruggit

